import Mathlib

/-!
Verification development for the wildlife-grad data pipeline.

Shallow embedding conventions:
* Python `str` values are Lean `String`s; a record key that may be absent is
  an `Option`, while string-valued content keys are total with the absent key
  identified with the empty string (the code reads them via `get(field, '')`).
* Python `float` arithmetic is modeled as exact rational arithmetic over `ℚ`.
  All thresholds compared against in the embedded code (0.1 margins, salary
  bands, score increments of 0.05) are far wider than double rounding error,
  and the concrete values exercised are exactly representable.
* Python `dict`s of positions keyed by hash are association lists with
  insert-in-place / append-if-new semantics matching dict update order.
* The MD5 digest is modeled by `md5hex`, a deterministic injective stand-in
  that returns the digested string itself; every claim about the hash depends
  only on equality of digests, which is preserved by this abstraction.
-/

/-- Python `str.strip` whitespace test (ASCII whitespace, which is all the
data contains). -/
def isPySpace (c : Char) : Bool :=
  c = ' ' || c = '\t' || c = '\n' || c = '\r'

/-- Python `str.strip`: drop whitespace from both ends. -/
def pyStrip (s : String) : String :=
  String.mk (((s.data.dropWhile isPySpace).reverse.dropWhile isPySpace).reverse)

/-- Python `str.lower` (ASCII case mapping, which is all the data contains). -/
def pyLower (s : String) : String :=
  String.mk (s.data.map Char.toLower)

/-- Does `pat` occur at the head of `s`? (Helper for substring search.) -/
def startsWithL : List Char → List Char → Bool
  | _, [] => true
  | [], _ :: _ => false
  | a :: as, b :: bs => a = b && startsWithL as bs

/-- Python `pat in s` substring test on character lists. -/
def occursIn : List Char → List Char → Bool
  | [], pat => pat.isEmpty
  | s@(_ :: rest), pat => startsWithL s pat || occursIn rest pat

/-- Python `s in t` on strings. -/
def containsSub (s pat : String) : Bool :=
  occursIn s.data pat.data

/-- Fuel-indexed worker for `pyReplace`; the fuel is the length of the
remaining text, which suffices because every step consumes at least one
character. -/
def replaceFuel : Nat → List Char → List Char → List Char → List Char
  | 0, s, _, _ => s
  | _ + 1, [], _, _ => []
  | fuel + 1, c :: rest, pat, rep =>
    if startsWithL (c :: rest) pat && !pat.isEmpty then
      rep ++ replaceFuel fuel ((c :: rest).drop pat.length) pat rep
    else
      c :: replaceFuel fuel rest pat rep

/-- Python `str.replace`: replace every occurrence of `pat` by `rep`. -/
def pyReplace (s pat rep : String) : String :=
  String.mk (replaceFuel s.data.length s.data pat.data rep.data)

/-- A JSON-ish field value as classified by `calculate_data_completeness`:
a string, a list, or anything else (modeled as null), which never counts as
populated. -/
inductive Value where
  | vstr (s : String)
  | vlist (l : List String)
  | vnull
  deriving DecidableEq

/-- The truthiness test the completeness loop applies to one field value:
a string counts when non-empty after stripping, a list when non-empty. -/
def isFilled : Value → Bool
  | Value.vstr s => decide (pyStrip s ≠ "")
  | Value.vlist l => !l.isEmpty
  | Value.vnull => false

/-- A record viewed as a Python dict: total map from field name to value,
with absent keys reading as the empty string (`position.get(field, '')`). -/
abbrev PosDict : Type := String → Value

/-- `fields_to_check` from `IntelligentDataMerger.calculate_data_completeness`. -/
def fields_to_check : List String :=
  ["title", "organization", "location", "salary_range",
   "application_deadline", "published_date", "starting_date",
   "hours_per_week", "education_required", "experience_required",
   "description", "job_id", "url"]

/-- The count of populated designated fields (the loop accumulator
`filled_fields` in `calculate_data_completeness`). -/
def filledCount (p : PosDict) : ℕ :=
  fields_to_check.countP (fun f => isFilled (p f))

/-- `IntelligentDataMerger.calculate_data_completeness`: fraction of the
designated fields whose value is populated. -/
def calculate_data_completeness (p : PosDict) : ℚ :=
  (filledCount p : ℚ) / ((fields_to_check.length : ℚ))

/-- A posting record with the keys the merge engine reads and writes.
String content keys are total (absent ≡ empty, matching `get(field, '')`);
timestamp keys that the code tests for presence are `Option`s; the
`data_enhanced` flag is a `Bool` (absent ≡ falsy). -/
structure Position where
  title : String := ""
  organization : String := ""
  location : String := ""
  salary_range : String := ""
  application_deadline : String := ""
  published_date : String := ""
  starting_date : String := ""
  hours_per_week : String := ""
  education_required : String := ""
  experience_required : String := ""
  description : String := ""
  job_id : String := ""
  url : String := ""
  first_seen : Option String := none
  last_updated : Option String := none
  data_enhanced : Bool := false
  enhanced_at : Option String := none
  deriving DecidableEq

/-- Field lookup by name for the 13 designated string fields. -/
def strField (p : Position) (f : String) : String :=
  if f = "title" then p.title
  else if f = "organization" then p.organization
  else if f = "location" then p.location
  else if f = "salary_range" then p.salary_range
  else if f = "application_deadline" then p.application_deadline
  else if f = "published_date" then p.published_date
  else if f = "starting_date" then p.starting_date
  else if f = "hours_per_week" then p.hours_per_week
  else if f = "education_required" then p.education_required
  else if f = "experience_required" then p.experience_required
  else if f = "description" then p.description
  else if f = "job_id" then p.job_id
  else if f = "url" then p.url
  else ""

/-- The dict view of a `Position` record. -/
def toDict (p : Position) : PosDict :=
  fun f => Value.vstr (strField p f)

/-- Normalization the hasher applies to the title: strip, lowercase,
en and em dashes to plain hyphen. -/
def normTitle (t : String) : String :=
  pyReplace (pyReplace (pyLower (pyStrip t)) "–" "-") "—" "-"

/-- Normalization the hasher applies to the organization: strip, lowercase,
remove the organization-type parenthetical suffixes, strip again. -/
def normOrg (o : String) : String :=
  pyStrip (pyReplace (pyReplace (pyReplace (pyLower (pyStrip o))
    "(state)" "") "(federal)" "") "(private)" "")

/-- Normalization the hasher applies to the location: strip, lowercase. -/
def normLoc (l : String) : String :=
  pyLower (pyStrip l)

/-- Stand-in for the MD5 hex digest: a deterministic (and, unlike real MD5,
collision-free) function of the input string. -/
def md5hex (s : String) : String := s

/-- `IntelligentDataMerger.generate_position_hash`: digest of the pipe-joined
normalized (title, organization, location) triple. -/
def generate_position_hash (p : Position) : String :=
  md5hex (normTitle p.title ++ "|" ++ normOrg p.organization ++ "|" ++
    normLoc p.location)

/-- `structured_fields` from `IntelligentDataMerger.is_better_data`. -/
def structured_fields : List String :=
  ["salary_range", "application_deadline", "published_date",
   "starting_date", "hours_per_week", "education_required"]

/-- Count of populated structured fields (`get(field, '').strip()` truthy). -/
def structuredCount (p : Position) : ℕ :=
  structured_fields.countP (fun f => decide (pyStrip (strField p f) ≠ ""))

/-- `IntelligentDataMerger.is_better_data`: the incoming record wins when its
completeness exceeds the stored one by more than 0.1, or when it populates
strictly more structured fields. -/
def is_better_data (np e : Position) : Bool :=
  let new_score := calculate_data_completeness (toDict np)
  let existing_score := calculate_data_completeness (toDict e)
  if new_score > existing_score + 1 / 10 then true
  else if structuredCount e < structuredCount np then true
  else false

/-- First-some choice on optional keys: the dict-update loop keeps the
existing value only when the incoming record lacks the key. -/
def orElseOpt (a b : Option String) : Option String :=
  match a with
  | some x => some x
  | none => b

/-- `IntelligentDataMerger.merge_positions`: start from the stored record;
when the incoming one is better, every incoming key except `first_seen`
overwrites, then `data_enhanced` and `enhanced_at` are set; otherwise only
`last_updated` is refreshed. -/
def merge_positions (np e : Position) (now : String) : Position :=
  if is_better_data np e then
    { np with
      first_seen := e.first_seen,
      last_updated := orElseOpt np.last_updated e.last_updated,
      data_enhanced := true,
      enhanced_at := some now }
  else
    { e with last_updated := some now }

/-- The completeness comparison with the 0.1 margin, restated over the raw
field counts: `a / 13 > b / 13 + 1 / 10` iff `10 a > 10 b + 13`. This is the
computational bridge used to evaluate `is_better_data` on concrete records
(rational arithmetic does not reduce in the kernel). -/
theorem is_better_data_eq (np e : Position) :
    is_better_data np e =
      (decide (10 * filledCount (toDict e) + 13 < 10 * filledCount (toDict np)) ||
        decide (structuredCount e < structuredCount np)) := by
  unfold is_better_data
  have key : calculate_data_completeness (toDict np) >
      calculate_data_completeness (toDict e) + 1 / 10 ↔
      10 * filledCount (toDict e) + 13 < 10 * filledCount (toDict np) := by
    unfold calculate_data_completeness
    have hlen : (fields_to_check.length : ℚ) = 13 := by norm_num [fields_to_check]
    rw [hlen, gt_iff_lt,
      div_add_div _ _ (by norm_num : (13:ℚ) ≠ 0) (by norm_num : (10:ℚ) ≠ 0),
      div_lt_div_iff₀ (by norm_num) (by norm_num)]
    constructor
    · intro hlt
      have hc : ((10 * filledCount (toDict e) + 13 : ℕ) : ℚ) <
          ((10 * filledCount (toDict np) : ℕ) : ℚ) := by push_cast; nlinarith
      exact_mod_cast hc
    · intro hlt
      have hc : ((10 * filledCount (toDict e) + 13 : ℕ) : ℚ) <
          ((10 * filledCount (toDict np) : ℕ) : ℚ) := by exact_mod_cast hlt
      push_cast at hc
      nlinarith
  by_cases hA : 10 * filledCount (toDict e) + 13 < 10 * filledCount (toDict np)
  · rw [if_pos (key.mpr hA)]
    simp [hA]
  · rw [if_neg (fun hc => hA (key.mp hc))]
    by_cases hB : structuredCount e < structuredCount np
    · rw [if_pos hB]
      simp [hA, hB]
    · rw [if_neg hB]
      simp [hA, hB]

example : pyLower (pyStrip "  Fish Ecologist – MS  ") = "fish ecologist – ms" := by decide
example : normTitle "  Fish Ecologist – MS  " = "fish ecologist - ms" := by decide
example : normOrg "TPWD (State)" = "tpwd" := by decide
example : containsSub "commensurate with experience" "commensurate" = true := by decide
example : filledCount (toDict { title := "x" }) = 1 := by decide
example : calculate_data_completeness (toDict { title := "x" }) = 1 / 13 := by
  have h : filledCount (toDict { title := "x" }) = 1 := by decide
  rw [calculate_data_completeness, h]
  norm_num [fields_to_check]
example :
    is_better_data { title := "t", salary_range := "5" } { title := "t" } = true := by
  rw [is_better_data_eq]
  decide

/-- The in-memory historical mapping: a Python dict keyed by identity hash,
kept as an association list in insertion order. -/
abbrev Store : Type := List (String × Position)

/-- Dict lookup (`d[k]` / `k in d`). -/
def plookup (k : String) : Store → Option Position
  | [] => none
  | (k0, v) :: rest => if k0 = k then some v else plookup k rest

/-- Dict assignment (`d[k] = v`): overwrite in place when the key exists,
append otherwise — Python dicts keep the original position on overwrite. -/
def dinsert (k : String) (v : Position) : Store → Store
  | [] => [(k, v)]
  | (k0, v0) :: rest =>
    if k0 = k then (k, v) :: rest else (k0, v0) :: dinsert k v rest

/-- The merge counters of `MergeStats` (Python ints, so `ℤ`). -/
structure MergeStats where
  historical_positions : ℤ := 0
  new_positions_added : ℤ := 0
  positions_updated : ℤ := 0
  positions_enhanced : ℤ := 0
  positions_preserved : ℤ := 0
  total_final_positions : ℤ := 0
  deriving DecidableEq

/-- One iteration of the `for pos_hash, new_position in new_positions.items()`
loop in `IntelligentDataMerger.merge_data`: membership is tested against the
loaded historical mapping, and the merged dict is updated in place. -/
def mergeStep (historical : Store) (now : String) :
    MergeStats × Store → String × Position → MergeStats × Store :=
  fun acc kv =>
    match plookup kv.1 historical with
    | some existing =>
      let merged := merge_positions kv.2 existing now
      ({ acc.1 with
          positions_updated := acc.1.positions_updated + 1,
          positions_preserved := acc.1.positions_preserved - 1,
          positions_enhanced :=
            acc.1.positions_enhanced + (if merged.data_enhanced then 1 else 0) },
        dinsert kv.1 merged acc.2)
    | none =>
      ({ acc.1 with new_positions_added := acc.1.new_positions_added + 1 },
        dinsert kv.1 { kv.2 with first_seen := some now } acc.2)

/-- `IntelligentDataMerger.merge_data` (after loading): start from all
historical positions, fold the incoming batch through `mergeStep`, then set
the total from the merged mapping size. -/
def merge_data (historical batch : Store) (now : String) : MergeStats × Store :=
  let st0 : MergeStats :=
    { historical_positions := historical.length,
      positions_preserved := historical.length }
  let res := batch.foldl (mergeStep historical now) (st0, historical)
  ({ res.1 with total_final_positions := res.2.length }, res.2)

/-- The `positions` array that `_save_merged_data` persists: the mapping's
values in order. -/
def positions (m : Store) : List Position :=
  m.map Prod.snd

/-- Re-loading a persisted `positions` array in
`IntelligentDataMerger.load_historical_data`: each record is re-keyed by its
identity hash, later duplicates overwriting earlier ones. -/
def loadStore (ps : List Position) : Store :=
  ps.foldl (fun acc p => dinsert (generate_position_hash p) p acc) []

theorem plookup_dinsert_self (k : String) (v : Position) (m : Store) :
    plookup k (dinsert k v m) = some v := by
  induction m with
  | nil => simp [dinsert, plookup]
  | cons kv rest ih =>
    obtain ⟨k0, v0⟩ := kv
    by_cases h : k0 = k
    · simp [dinsert, h, plookup]
    · simp [dinsert, h, plookup, ih]

theorem plookup_dinsert_other (k q : String) (v : Position) (m : Store)
    (hne : k ≠ q) : plookup q (dinsert k v m) = plookup q m := by
  induction m with
  | nil => simp [dinsert, plookup, hne]
  | cons kv rest ih =>
    obtain ⟨k0, v0⟩ := kv
    by_cases h : k0 = k
    · subst h
      simp [dinsert, plookup, hne]
    · simp [dinsert, h, plookup, ih]

theorem dinsert_keys_mem (k : String) (v : Position) (m : Store)
    (hmem : plookup k m ≠ none) :
    (dinsert k v m).map Prod.fst = m.map Prod.fst := by
  induction m with
  | nil => simp [plookup] at hmem
  | cons kv rest ih =>
    obtain ⟨k0, v0⟩ := kv
    by_cases h : k0 = k
    · simp [dinsert, h]
    · simp [plookup, h] at hmem
      simp [dinsert, h, ih hmem]

theorem dinsert_keys_append (k : String) (v : Position) (m : Store)
    (hmem : plookup k m = none) :
    (dinsert k v m).map Prod.fst = m.map Prod.fst ++ [k] := by
  induction m with
  | nil => simp [dinsert]
  | cons kv rest ih =>
    obtain ⟨k0, v0⟩ := kv
    by_cases h : k0 = k
    · simp [plookup, h] at hmem
    · simp [plookup, h] at hmem
      simp [dinsert, h, ih hmem]

theorem dinsert_append_of_not_mem (k : String) (v : Position) (m : Store)
    (hmem : plookup k m = none) : dinsert k v m = m ++ [(k, v)] := by
  induction m with
  | nil => simp [dinsert]
  | cons kv rest ih =>
    obtain ⟨k0, v0⟩ := kv
    by_cases h : k0 = k
    · simp [plookup, h] at hmem
    · simp [plookup, h] at hmem
      simp [dinsert, h, ih hmem]

theorem plookup_none_iff (k : String) (m : Store) :
    plookup k m = none ↔ k ∉ m.map Prod.fst := by
  induction m with
  | nil => simp [plookup]
  | cons kv rest ih =>
    obtain ⟨k0, v0⟩ := kv
    by_cases h : k0 = k
    · simp [plookup, h]
    · simp [plookup, h, ih, Ne.symm h]

theorem plookup_isSome_iff (k : String) (m : Store) :
    (plookup k m).isSome = true ↔ k ∈ m.map Prod.fst := by
  rw [← Decidable.not_iff_not, ← plookup_none_iff]
  cases plookup k m <;> simp

theorem plookup_mem (k : String) (p : Position) (m : Store)
    (h : plookup k m = some p) : (k, p) ∈ m := by
  induction m with
  | nil => simp [plookup] at h
  | cons kv rest ih =>
    obtain ⟨k0, v0⟩ := kv
    by_cases hk : k0 = k
    · subst hk
      simp [plookup] at h
      simp [h]
    · simp [plookup, hk] at h
      exact List.mem_cons_of_mem _ (ih h)

theorem merge_positions_first_seen (np e : Position) (now : String) :
    (merge_positions np e now).first_seen = e.first_seen := by
  unfold merge_positions
  split <;> rfl

/-- What the merged mapping holds at key `k` after the batch loop: the merge
of the batch record with the historical one when both exist, the batch record
stamped with `first_seen` when the key is new, and the accumulator's entry
when the batch does not mention `k`. -/
theorem foldl_mergeStep_plookup (hist : Store) (now : String) :
    ∀ (l : Store) (acc : MergeStats × Store) (k : String),
      (l.map Prod.fst).Nodup →
      plookup k (l.foldl (mergeStep hist now) acc).2 =
        match plookup k l with
        | some np =>
          some (match plookup k hist with
            | some e => merge_positions np e now
            | none => { np with first_seen := some now })
        | none => plookup k acc.2 := by
  intro l
  induction l with
  | nil => intro acc k _; simp [plookup]
  | cons kv tl ih =>
    intro acc k hnd
    obtain ⟨k0, np0⟩ := kv
    simp only [List.map_cons, List.nodup_cons] at hnd
    obtain ⟨hk0, hndtl⟩ := hnd
    simp only [List.foldl_cons]
    rw [ih _ k hndtl]
    by_cases hkk : k0 = k
    · subst hkk
      have htl : plookup k0 tl = none := (plookup_none_iff k0 tl).mpr hk0
      rw [htl]
      simp only [plookup, if_pos rfl]
      unfold mergeStep
      cases hh : plookup k0 hist with
      | some e => simp [hh, plookup_dinsert_self]
      | none => simp [hh, plookup_dinsert_self]
    · simp only [plookup, if_neg hkk]
      cases htl : plookup k tl with
      | some np => rfl
      | none =>
        unfold mergeStep
        cases hh : plookup k0 hist with
        | some e => simp [hh, plookup_dinsert_other k0 k _ _ hkk]
        | none => simp [hh, plookup_dinsert_other k0 k _ _ hkk]

theorem foldl_mergeStep_upd_pres (hist : Store) (now : String) :
    ∀ (l : Store) (acc : MergeStats × Store),
      (l.foldl (mergeStep hist now) acc).1.positions_updated +
        (l.foldl (mergeStep hist now) acc).1.positions_preserved =
      acc.1.positions_updated + acc.1.positions_preserved := by
  intro l
  induction l with
  | nil => intro acc; rfl
  | cons kv tl ih =>
    intro acc
    simp only [List.foldl_cons]
    rw [ih]
    unfold mergeStep
    cases plookup kv.1 hist <;> simp

theorem foldl_mergeStep_historical (hist : Store) (now : String) :
    ∀ (l : Store) (acc : MergeStats × Store),
      (l.foldl (mergeStep hist now) acc).1.historical_positions =
      acc.1.historical_positions := by
  intro l
  induction l with
  | nil => intro acc; rfl
  | cons kv tl ih =>
    intro acc
    simp only [List.foldl_cons]
    rw [ih]
    unfold mergeStep
    cases plookup kv.1 hist <;> simp

theorem dinsert_length_mem (k : String) (v : Position) (m : Store)
    (hmem : plookup k m ≠ none) : (dinsert k v m).length = m.length := by
  have h := dinsert_keys_mem k v m hmem
  have h1 : ((dinsert k v m).map Prod.fst).length = (m.map Prod.fst).length := by
    rw [h]
  simpa using h1

theorem dinsert_length_new (k : String) (v : Position) (m : Store)
    (hmem : plookup k m = none) : (dinsert k v m).length = m.length + 1 := by
  rw [dinsert_append_of_not_mem k v m hmem]
  simp

/-- Through the batch loop, the merged mapping grows by exactly the number of
records counted as newly added. The side conditions say the accumulator
already covers every historical key and no not-yet-processed new key. -/
theorem foldl_mergeStep_len (hist : Store) (now : String) :
    ∀ (l : Store) (acc : MergeStats × Store),
      (l.map Prod.fst).Nodup →
      (∀ q, plookup q hist ≠ none → plookup q acc.2 ≠ none) →
      (∀ q, q ∈ l.map Prod.fst → plookup q hist = none →
        plookup q acc.2 = none) →
      ((l.foldl (mergeStep hist now) acc).2.length : ℤ) -
          (l.foldl (mergeStep hist now) acc).1.new_positions_added =
        (acc.2.length : ℤ) - acc.1.new_positions_added := by
  intro l
  induction l with
  | nil => intro acc _ _ _; rfl
  | cons kv tl ih =>
    intro acc hnd hcov hfresh
    obtain ⟨k0, np0⟩ := kv
    simp only [List.map_cons, List.nodup_cons] at hnd
    obtain ⟨hk0, hndtl⟩ := hnd
    simp only [List.foldl_cons]
    have hstep :
        ((mergeStep hist now acc (k0, np0)).2.length : ℤ) -
            (mergeStep hist now acc (k0, np0)).1.new_positions_added =
          (acc.2.length : ℤ) - acc.1.new_positions_added := by
      unfold mergeStep
      cases hh : plookup k0 hist with
      | some e =>
        have hacc : plookup k0 acc.2 ≠ none := hcov k0 (by simp [hh])
        simp [dinsert_length_mem _ _ _ hacc]
      | none =>
        have hacc : plookup k0 acc.2 = none := hfresh k0 (by simp) hh
        simp [dinsert_length_new _ _ _ hacc]
    rw [ih _ hndtl, hstep]
    · intro q hq
      unfold mergeStep
      cases hh : plookup k0 hist with
      | some e =>
        simp only
        by_cases hqk : k0 = q
        · subst hqk; simp [plookup_dinsert_self]
        · rw [plookup_dinsert_other _ _ _ _ hqk]; exact hcov q hq
      | none =>
        simp only
        by_cases hqk : k0 = q
        · subst hqk; simp [plookup_dinsert_self]
        · rw [plookup_dinsert_other _ _ _ _ hqk]; exact hcov q hq
    · intro q hq hqh
      have hqk : k0 ≠ q := by
        intro h; subst h; exact hk0 hq
      unfold mergeStep
      cases hh : plookup k0 hist with
      | some e =>
        simp only
        rw [plookup_dinsert_other _ _ _ _ hqk]
        exact hfresh q (by simp [hq]) hqh
      | none =>
        simp only
        rw [plookup_dinsert_other _ _ _ _ hqk]
        exact hfresh q (by simp [hq]) hqh

/-- C1: postings whose (title, organization, location) agree after the
hasher's normalization get the same identity hash, whatever their other
fields hold: the hash reads nothing but the normalized triple. -/
theorem identity_hash_of_normalized_eq (p1 p2 : Position)
    (ht : normTitle p1.title = normTitle p2.title)
    (ho : normOrg p1.organization = normOrg p2.organization)
    (hl : normLoc p1.location = normLoc p2.location) :
    generate_position_hash p1 = generate_position_hash p2 := by
  unfold generate_position_hash
  rw [ht, ho, hl]

/-- Witness for C1: two records that differ in raw casing, whitespace, an
en dash, an organization-type suffix, and in their other fields, but whose
normalized triples coincide. -/
theorem identity_hash_of_normalized_eq_witness :
    generate_position_hash
        { title := "Fish Ecologist – MS", organization := "TPWD (State)",
          location := " Austin ", description := "long text",
          salary_range := "$25,000" } =
      generate_position_hash
        { title := "  fish ecologist - ms", organization := "tpwd",
          location := "austin", url := "https://x" } :=
  identity_hash_of_normalized_eq _ _ (by decide) (by decide) (by decide)

/-- C4: the incoming record's fields replace the stored ones (with
`data_enhanced` set) exactly when the incoming completeness beats the stored
one by more than the 0.10 margin or strictly more structured fields are
populated; otherwise the stored fields survive and only `last_updated` is
refreshed. -/
theorem better_data_arbitration (np e : Position) (now : String) :
    (is_better_data np e = true ↔
      (calculate_data_completeness (toDict np) >
          calculate_data_completeness (toDict e) + 1 / 10 ∨
        structuredCount e < structuredCount np)) ∧
    (is_better_data np e = true →
      merge_positions np e now =
        { np with
          first_seen := e.first_seen,
          last_updated := orElseOpt np.last_updated e.last_updated,
          data_enhanced := true,
          enhanced_at := some now }) ∧
    (is_better_data np e = false →
      merge_positions np e now = { e with last_updated := some now }) := by
  refine ⟨?_, ?_, ?_⟩
  · unfold is_better_data
    by_cases hA : calculate_data_completeness (toDict np) >
        calculate_data_completeness (toDict e) + 1 / 10
    · simp [hA]
    · by_cases hB : structuredCount e < structuredCount np
      · simp [hA, hB]
      · simp [hA, hB]
  · intro h
    unfold merge_positions
    rw [h]
    simp
  · intro h
    unfold merge_positions
    rw [h]
    simp

/-- Witness for C4, winning side: one extra structured field makes the
incoming record win, overwriting fields and setting `data_enhanced`. -/
theorem better_data_arbitration_witness :
    merge_positions { title := "t", salary_range := "5" } { title := "t" } "t0" =
      { title := "t", salary_range := "5", data_enhanced := true,
        enhanced_at := some "t0" } :=
  (better_data_arbitration { title := "t", salary_range := "5" }
      { title := "t" } "t0").2.1
    (by rw [is_better_data_eq]; decide)

/-- C2: a merge never touches the stored `first_seen` of an existing hash —
whether or not the incoming record wins — and stamps `first_seen` exactly at
the merge that first sees a hash. -/
theorem merge_first_seen (hist batch : Store) (now k : String)
    (hb : (batch.map Prod.fst).Nodup) :
    (∀ p, plookup k hist = some p →
      ∃ q, plookup k (merge_data hist batch now).2 = some q ∧
        q.first_seen = p.first_seen) ∧
    (plookup k hist = none → ∀ np, plookup k batch = some np →
      plookup k (merge_data hist batch now).2 =
        some { np with first_seen := some now }) := by
  have hlook := foldl_mergeStep_plookup hist now batch
    ({ historical_positions := hist.length,
       positions_preserved := hist.length }, hist) k hb
  constructor
  · intro p hp
    unfold merge_data
    simp only
    rw [hlook]
    cases hbk : plookup k batch with
    | some np =>
      rw [hp]
      exact ⟨merge_positions np p now, rfl, merge_positions_first_seen np p now⟩
    | none => exact ⟨p, hp, rfl⟩
  · intro hnone np hnp
    unfold merge_data
    simp only
    rw [hlook, hnp, hnone]

/-- Witness for C2: a one-record store merged with a batch that updates the
existing hash and brings one new hash. -/
theorem merge_first_seen_witness :
    (∃ q,
      plookup "a||"
          (merge_data [("a||", { title := "a", first_seen := some "t0" })]
            [("a||", { title := "a", salary_range := "5" }),
             ("b||", { title := "b" })] "t1").2 = some q ∧
        q.first_seen = some "t0") ∧
    plookup "b||"
        (merge_data [("a||", { title := "a", first_seen := some "t0" })]
          [("a||", { title := "a", salary_range := "5" }),
           ("b||", { title := "b" })] "t1").2 =
      some { title := "b", first_seen := some "t1" } := by
  constructor
  · exact (merge_first_seen [("a||", { title := "a", first_seen := some "t0" })]
      [("a||", { title := "a", salary_range := "5" }), ("b||", { title := "b" })]
      "t1" "a||" (by decide)).1 _ rfl
  · exact (merge_first_seen [("a||", { title := "a", first_seen := some "t0" })]
      [("a||", { title := "a", salary_range := "5" }), ("b||", { title := "b" })]
      "t1" "b||" (by decide)).2 rfl _ rfl

/-- C10: after a merge, updated + preserved equals the number of loaded
historical entries, historical + newly added equals the final total, and the
total is the length of the persisted positions array. -/
theorem merge_stats_consistent (hist batch : Store) (now : String)
    (hb : (batch.map Prod.fst).Nodup) :
    (merge_data hist batch now).1.positions_updated +
        (merge_data hist batch now).1.positions_preserved =
      (merge_data hist batch now).1.historical_positions ∧
    (merge_data hist batch now).1.historical_positions +
        (merge_data hist batch now).1.new_positions_added =
      (merge_data hist batch now).1.total_final_positions ∧
    (merge_data hist batch now).1.total_final_positions =
      ((positions (merge_data hist batch now).2).length : ℤ) := by
  unfold merge_data
  simp only
  set st0 : MergeStats :=
    { historical_positions := hist.length,
      positions_preserved := hist.length } with hst0
  have hup := foldl_mergeStep_upd_pres hist now batch (st0, hist)
  have hhist := foldl_mergeStep_historical hist now batch (st0, hist)
  have hlen := foldl_mergeStep_len hist now batch (st0, hist) hb
    (fun q hq => hq) (fun q _ hq => hq)
  constructor
  · rw [hup, hhist]
    simp [hst0]
  · constructor
    · rw [hhist]
      simp only [hst0] at hlen ⊢
      omega
    · simp [positions]

/-- Witness for C10: the two-record batch against a one-record store. -/
theorem merge_stats_consistent_witness :
    (merge_data [("a||", { title := "a", first_seen := some "t0" })]
          [("a||", { title := "a", salary_range := "5" }),
           ("b||", { title := "b" })] "t1").1.positions_updated +
        (merge_data [("a||", { title := "a", first_seen := some "t0" })]
          [("a||", { title := "a", salary_range := "5" }),
           ("b||", { title := "b" })] "t1").1.positions_preserved =
      (merge_data [("a||", { title := "a", first_seen := some "t0" })]
        [("a||", { title := "a", salary_range := "5" }),
         ("b||", { title := "b" })] "t1").1.historical_positions ∧
    (merge_data [("a||", { title := "a", first_seen := some "t0" })]
          [("a||", { title := "a", salary_range := "5" }),
           ("b||", { title := "b" })] "t1").1.historical_positions +
        (merge_data [("a||", { title := "a", first_seen := some "t0" })]
          [("a||", { title := "a", salary_range := "5" }),
           ("b||", { title := "b" })] "t1").1.new_positions_added =
      (merge_data [("a||", { title := "a", first_seen := some "t0" })]
        [("a||", { title := "a", salary_range := "5" }),
         ("b||", { title := "b" })] "t1").1.total_final_positions ∧
    (merge_data [("a||", { title := "a", first_seen := some "t0" })]
        [("a||", { title := "a", salary_range := "5" }),
         ("b||", { title := "b" })] "t1").1.total_final_positions =
      (((positions (merge_data [("a||", { title := "a", first_seen := some "t0" })]
        [("a||", { title := "a", salary_range := "5" }),
         ("b||", { title := "b" })] "t1").2).length : ℤ)) :=
  merge_stats_consistent [("a||", { title := "a", first_seen := some "t0" })]
    [("a||", { title := "a", salary_range := "5" }), ("b||", { title := "b" })]
    "t1" (by decide)

theorem merge_positions_not_better (np e : Position) (now : String)
    (h : is_better_data np e = false) :
    merge_positions np e now = { e with last_updated := some now } := by
  unfold merge_positions
  rw [h]
  simp

/-- `is_better_data` ignores everything outside the designated content
fields, so a record whose dict view and structured count agree with the
incoming record is never "better" to replace. -/
theorem is_better_of_same_content (p q : Position)
    (hd : toDict q = toDict p) (hs : structuredCount q = structuredCount p) :
    is_better_data p q = false := by
  unfold is_better_data
  rw [hd, hs]
  rw [if_neg (by simp), if_neg (lt_irrefl _)]

/-- A record that just went through `merge_positions` against incoming `np`
is never again beaten by the same `np`. -/
theorem merge_result_not_better (np e : Position) (now : String) :
    is_better_data np (merge_positions np e now) = false := by
  unfold merge_positions
  by_cases h : is_better_data np e
  · rw [if_pos h]
    exact is_better_of_same_content np _ rfl rfl
  · rw [if_neg h]
    have hrw : is_better_data np { e with last_updated := some now } =
        is_better_data np e := rfl
    rw [hrw]
    exact Bool.not_eq_true _ ▸ Bool.of_not_eq_true h

/-- The hash only reads the content fields, so stamping timestamps or flags
does not change it. -/
theorem hash_ignores_first_seen (p : Position) (x : Option String) :
    generate_position_hash { p with first_seen := x } =
      generate_position_hash p := rfl

theorem hash_ignores_last_updated (p : Position) (x : Option String) :
    generate_position_hash { p with last_updated := x } =
      generate_position_hash p := rfl

theorem hash_merge_positions (np e : Position) (now : String) :
    generate_position_hash (merge_positions np e now) =
      (if is_better_data np e then generate_position_hash np
        else generate_position_hash e) := by
  unfold merge_positions
  by_cases h : is_better_data np e
  · rw [if_pos h, if_pos h]
    rfl
  · rw [if_neg h, if_neg h]
    rfl

theorem dinsert_mem_cases (k : String) (v : Position) (m : Store)
    (kv : String × Position) (h : kv ∈ dinsert k v m) :
    kv = (k, v) ∨ kv ∈ m := by
  induction m with
  | nil => simp [dinsert] at h; simp [h]
  | cons kv0 rest ih =>
    obtain ⟨k0, v0⟩ := kv0
    by_cases hk : k0 = k
    · simp [dinsert, hk] at h
      rcases h with h | h
      · left; simp [h]
      · right; simp [h]
    · simp [dinsert, hk] at h
      rcases h with h | h
      · right; simp [h]
      · rcases ih h with h1 | h1
        · left; exact h1
        · right; simp [h1]

theorem dinsert_nodup_keys (k : String) (v : Position) (m : Store)
    (h : (m.map Prod.fst).Nodup) : ((dinsert k v m).map Prod.fst).Nodup := by
  cases hk : plookup k m with
  | some p =>
    rw [dinsert_keys_mem k v m (by simp [hk])]
    exact h
  | none =>
    rw [dinsert_keys_append k v m hk]
    rw [List.nodup_append]
    refine ⟨h, List.nodup_singleton k, ?_⟩
    intro a ha hb
    simp at hb
    exact absurd (hb ▸ ha) ((plookup_none_iff k m).mp hk)

/-- Every record the batch loop stores under a key hashes back to that key,
provided the loaded historical and batch mappings do. -/
theorem foldl_mergeStep_hash_consistent (hist : Store) (now : String)
    (hch : ∀ kv ∈ hist, generate_position_hash kv.2 = kv.1) :
    ∀ (l : Store) (acc : MergeStats × Store),
      (∀ kv ∈ l, generate_position_hash kv.2 = kv.1) →
      (∀ kv ∈ acc.2, generate_position_hash kv.2 = kv.1) →
      ∀ kv ∈ (l.foldl (mergeStep hist now) acc).2,
        generate_position_hash kv.2 = kv.1 := by
  intro l
  induction l with
  | nil => intro acc _ hacc kv hkv; exact hacc kv hkv
  | cons kv0 tl ih =>
    intro acc hl hacc kv hkv
    obtain ⟨k0, np0⟩ := kv0
    simp only [List.foldl_cons] at hkv
    refine ih _ (fun x hx => hl x (List.mem_cons_of_mem _ hx)) ?_ kv hkv
    intro x hx
    unfold mergeStep at hx
    cases hh : plookup k0 hist with
    | some e =>
      rw [hh] at hx
      simp only at hx
      rcases dinsert_mem_cases _ _ _ _ hx with h1 | h1
      · subst h1
        simp only
        rw [hash_merge_positions]
        by_cases hib : is_better_data np0 e
        · rw [if_pos hib]
          exact hl (k0, np0) (List.mem_cons_self _ _)
        · rw [if_neg hib]
          exact hch (k0, e) (plookup_mem _ _ _ hh)
      · exact hacc x h1
    | none =>
      rw [hh] at hx
      simp only at hx
      rcases dinsert_mem_cases _ _ _ _ hx with h1 | h1
      · subst h1
        simp only
        rw [hash_ignores_first_seen]
        exact hl (k0, np0) (List.mem_cons_self _ _)
      · exact hacc x h1

/-- The batch loop keeps the merged mapping's keys duplicate-free. -/
theorem foldl_mergeStep_nodup (hist : Store) (now : String) :
    ∀ (l : Store) (acc : MergeStats × Store),
      (acc.2.map Prod.fst).Nodup →
      ((l.foldl (mergeStep hist now) acc).2.map Prod.fst).Nodup := by
  intro l
  induction l with
  | nil => intro acc h; exact h
  | cons kv0 tl ih =>
    intro acc h
    simp only [List.foldl_cons]
    refine ih _ ?_
    unfold mergeStep
    cases plookup kv0.1 hist with
    | some e => exact dinsert_nodup_keys _ _ _ h
    | none => exact dinsert_nodup_keys _ _ _ h

theorem plookup_of_mem_nodup (m : Store) (kv : String × Position)
    (hnd : (m.map Prod.fst).Nodup) (h : kv ∈ m) : plookup kv.1 m = some kv.2 := by
  induction m with
  | nil => simp at h
  | cons kv0 rest ih =>
    obtain ⟨k0, v0⟩ := kv0
    simp only [List.map_cons, List.nodup_cons] at hnd
    rcases List.mem_cons.mp h with h1 | h1
    · subst h1
      simp [plookup]
    · have hne : k0 ≠ kv.1 := by
        intro he
        exact hnd.1 (he ▸ (List.mem_map_of_mem Prod.fst h1))
      simp only [plookup, if_neg hne]
      exact ih hnd.2 h1

/-- Folding the persisted records back through the hash-keyed load rebuilds
the mapping verbatim when every stored record hashes to its key. -/
theorem loadStore_go :
    ∀ (m acc : Store),
      (∀ kv ∈ m, generate_position_hash kv.2 = kv.1) →
      (∀ kv ∈ m, plookup kv.1 acc = none) →
      (m.map Prod.fst).Nodup →
      (positions m).foldl
        (fun a p => dinsert (generate_position_hash p) p a) acc = acc ++ m := by
  intro m
  induction m with
  | nil => intro acc _ _ _; simp [positions]
  | cons kv rest ih =>
    intro acc hc hfresh hnd
    obtain ⟨k, p⟩ := kv
    simp only [List.map_cons, List.nodup_cons] at hnd
    have hk : generate_position_hash p = k := hc (k, p) (List.mem_cons_self _ _)
    simp only [positions, List.map_cons, List.foldl_cons]
    rw [hk, dinsert_append_of_not_mem k p acc (hfresh (k, p) (List.mem_cons_self _ _))]
    have hres := ih (acc ++ [(k, p)])
      (fun kv hkv => hc kv (List.mem_cons_of_mem _ hkv))
      (fun kv hkv => by
        rw [plookup_none_iff]
        simp only [List.map_append, List.mem_append]
        push_neg
        constructor
        · exact (plookup_none_iff kv.1 acc).mp (hfresh kv (List.mem_cons_of_mem _ hkv))
        · simp only [List.map_cons, List.map_nil, List.mem_singleton]
          intro he
          exact hnd.1 (he ▸ (List.mem_map_of_mem Prod.fst hkv)))
      hnd.2
    simp only [positions] at hres
    rw [hres, List.append_assoc]
    rfl

/-- Round trip: persisting the merged mapping's values and re-keying them by
hash restores the mapping. -/
theorem loadStore_roundtrip (m : Store)
    (hnd : (m.map Prod.fst).Nodup)
    (hc : ∀ kv ∈ m, generate_position_hash kv.2 = kv.1) :
    loadStore (positions m) = m := by
  unfold loadStore
  have h := loadStore_go m [] hc (fun kv _ => rfl) hnd
  simpa using h

/-- Refresh `last_updated` on exactly the entries whose key belongs to `S`. -/
def refreshTouched (S : List String) (now : String) (m : Store) : Store :=
  m.map (fun kv =>
    if kv.1 ∈ S then (kv.1, { kv.2 with last_updated := some now }) else kv)

theorem refreshTouched_nil (now : String) (m : Store) :
    refreshTouched [] now m = m := by
  simp [refreshTouched]

theorem refreshTouched_congr (S T : List String) (now : String) (m : Store)
    (h : ∀ kv ∈ m, (kv.1 ∈ S ↔ kv.1 ∈ T)) :
    refreshTouched S now m = refreshTouched T now m := by
  unfold refreshTouched
  apply List.map_congr_left
  intro kv hkv
  by_cases hs : kv.1 ∈ S
  · rw [if_pos hs, if_pos ((h kv hkv).mp hs)]
  · rw [if_neg hs, if_neg (fun ht => hs ((h kv hkv).mpr ht))]

theorem dinsert_refreshTouched (k : String) (r : Position) (S : List String)
    (now : String) :
    ∀ (m : Store), (m.map Prod.fst).Nodup → plookup k m = some r → k ∉ S →
      dinsert k { r with last_updated := some now } (refreshTouched S now m) =
        refreshTouched (S ++ [k]) now m := by
  intro m
  induction m with
  | nil => intro _ hl _; simp [plookup] at hl
  | cons kv0 rest ih =>
    intro hnd hl hkS
    obtain ⟨k0, v0⟩ := kv0
    simp only [List.map_cons, List.nodup_cons] at hnd
    by_cases hk : k0 = k
    · subst hk
      simp [plookup] at hl
      subst hl
      simp only [refreshTouched, List.map_cons]
      rw [if_neg hkS, if_pos (by simp)]
      simp only [dinsert, if_pos rfl]
      have htail : refreshTouched S now rest = refreshTouched (S ++ [k0]) now rest := by
        apply refreshTouched_congr
        intro kv hkv
        have hne : kv.1 ≠ k0 := by
          intro he
          exact hnd.1 (he ▸ (List.mem_map_of_mem Prod.fst hkv))
        simp [hne]
      simp only [refreshTouched] at htail
      rw [htail]
      simp
    · have hlt : plookup k rest = some r := by
        simpa [plookup, hk] using hl
      simp only [refreshTouched, List.map_cons]
      by_cases hs : k0 ∈ S
      · rw [if_pos hs, if_pos (by simp [hs])]
        simp only [dinsert, if_neg hk]
        have := ih hnd.2 hlt hkS
        simp only [refreshTouched] at this
        rw [this]
      · rw [if_neg hs, if_neg (by simp [hs, hk])]
        simp only [dinsert, if_neg hk]
        have := ih hnd.2 hlt hkS
        simp only [refreshTouched] at this
        rw [this]

/-- A second pass of the batch loop over a mapping that already contains all
batch keys — each with a record the incoming one cannot beat — only
refreshes `last_updated` on the touched entries and adds nothing. -/
theorem foldl_mergeStep_refresh (m1 : Store) (now : String)
    (hnd1 : (m1.map Prod.fst).Nodup) :
    ∀ (l : Store) (st : MergeStats) (S : List String),
      (l.map Prod.fst).Nodup →
      (∀ kv ∈ l, ∃ r, plookup kv.1 m1 = some r ∧ is_better_data kv.2 r = false) →
      (∀ kv ∈ l, kv.1 ∉ S) →
      (l.foldl (mergeStep m1 now) (st, refreshTouched S now m1)).2 =
        refreshTouched (S ++ l.map Prod.fst) now m1 ∧
      (l.foldl (mergeStep m1 now) (st, refreshTouched S now m1)).1.new_positions_added
        = st.new_positions_added := by
  intro l
  induction l with
  | nil => intro st S _ _ _; simp
  | cons kv0 tl ih =>
    intro st S hnd hcov hS
    obtain ⟨k0, np0⟩ := kv0
    simp only [List.map_cons, List.nodup_cons] at hnd
    obtain ⟨r, hr, hib⟩ := hcov (k0, np0) (List.mem_cons_self _ _)
    simp only [List.foldl_cons]
    have hstep : mergeStep m1 now (st, refreshTouched S now m1) (k0, np0) =
        ({ st with
            positions_updated := st.positions_updated + 1,
            positions_preserved := st.positions_preserved - 1,
            positions_enhanced := st.positions_enhanced +
              (if (merge_positions np0 r now).data_enhanced then 1 else 0) },
          refreshTouched (S ++ [k0]) now m1) := by
      unfold mergeStep
      rw [hr]
      simp only
      rw [merge_positions_not_better np0 r now hib,
        dinsert_refreshTouched k0 r S now m1 hnd1 hr
          (hS (k0, np0) (List.mem_cons_self _ _))]
    rw [hstep]
    have hres := ih
      { st with
        positions_updated := st.positions_updated + 1,
        positions_preserved := st.positions_preserved - 1,
        positions_enhanced := st.positions_enhanced +
          (if (merge_positions np0 r now).data_enhanced then 1 else 0) }
      (S ++ [k0]) hnd.2
      (fun kv hkv => hcov kv (List.mem_cons_of_mem _ hkv))
      (fun kv hkv => by
        simp only [List.mem_append, List.mem_singleton]
        push_neg
        refine ⟨hS kv (List.mem_cons_of_mem _ hkv), ?_⟩
        intro he
        exact hnd.1 (he ▸ (List.mem_map_of_mem Prod.fst hkv)))
    rw [hres.1, hres.2]
    constructor
    · rw [List.append_assoc]
      rfl
    · rfl

theorem merge_data_snd (hist batch : Store) (now : String) :
    (merge_data hist batch now).2 =
      (batch.foldl (mergeStep hist now)
        ({ historical_positions := (hist.length : ℤ),
           positions_preserved := (hist.length : ℤ) }, hist)).2 := rfl

theorem merge_data_added (hist batch : Store) (now : String) :
    (merge_data hist batch now).1.new_positions_added =
      (batch.foldl (mergeStep hist now)
        ({ historical_positions := (hist.length : ℤ),
           positions_preserved := (hist.length : ℤ) }, hist)).1.new_positions_added :=
  rfl

theorem merge_data_nodup (hist batch : Store) (now : String)
    (hh : (hist.map Prod.fst).Nodup) :
    ((merge_data hist batch now).2.map Prod.fst).Nodup := by
  rw [merge_data_snd]
  exact foldl_mergeStep_nodup hist now batch _ hh

theorem merge_data_hash_consistent (hist batch : Store) (now : String)
    (hch : ∀ kv ∈ hist, generate_position_hash kv.2 = kv.1)
    (hcb : ∀ kv ∈ batch, generate_position_hash kv.2 = kv.1) :
    ∀ kv ∈ (merge_data hist batch now).2, generate_position_hash kv.2 = kv.1 := by
  rw [merge_data_snd]
  exact foldl_mergeStep_hash_consistent hist now hch batch _ hcb hch

/-- After a merge, the stored record under any batch key can no longer be
beaten by the same batch record. -/
theorem merge_data_batch_covered (hist batch : Store) (now1 : String)
    (hb : (batch.map Prod.fst).Nodup) :
    ∀ kv ∈ batch, ∃ r, plookup kv.1 (merge_data hist batch now1).2 = some r ∧
      is_better_data kv.2 r = false := by
  intro kv hkv
  have hlk : plookup kv.1 batch = some kv.2 := plookup_of_mem_nodup batch kv hb hkv
  rw [merge_data_snd, foldl_mergeStep_plookup hist now1 batch _ kv.1 hb, hlk]
  cases hh : plookup kv.1 hist with
  | some e => exact ⟨_, rfl, merge_result_not_better kv.2 e now1⟩
  | none => exact ⟨_, rfl, is_better_of_same_content kv.2 _ rfl rfl⟩

theorem positions_refreshTouched (S : List String) (now : String) (m : Store)
    (hc : ∀ kv ∈ m, generate_position_hash kv.2 = kv.1) :
    positions (refreshTouched S now m) =
      (positions m).map (fun p =>
        if generate_position_hash p ∈ S
        then { p with last_updated := some now } else p) := by
  unfold positions refreshTouched
  rw [List.map_map, List.map_map]
  apply List.map_congr_left
  intro kv hkv
  simp only [Function.comp_apply]
  rw [hc kv hkv]
  by_cases hs : kv.1 ∈ S
  · rw [if_pos hs, if_pos hs]
  · rw [if_neg hs, if_neg hs]

theorem refreshTouched_erase_last_updated (S : List String) (now : String)
    (m : Store) :
    (positions (refreshTouched S now m)).map
        (fun p => { p with last_updated := none }) =
      (positions m).map (fun p => { p with last_updated := none }) := by
  unfold positions refreshTouched
  rw [List.map_map, List.map_map, List.map_map]
  apply List.map_congr_left
  intro kv _
  simp only [Function.comp_apply]
  by_cases hs : kv.1 ∈ S
  · rw [if_pos hs]
  · rw [if_neg hs]

/-- C3 (amended): re-merging the same batch adds nothing, and the persisted
positions change only by refreshing `last_updated` on the records whose hash
the batch mentions; in particular, disregarding `last_updated`, the persisted
array is unchanged (even pointwise). -/
theorem merge_twice_amended (hist batch : Store) (now1 now2 : String)
    (hh : (hist.map Prod.fst).Nodup) (hb : (batch.map Prod.fst).Nodup)
    (hch : ∀ kv ∈ hist, generate_position_hash kv.2 = kv.1)
    (hcb : ∀ kv ∈ batch, generate_position_hash kv.2 = kv.1) :
    (merge_data (loadStore (positions (merge_data hist batch now1).2))
        batch now2).1.new_positions_added = 0 ∧
    positions (merge_data (loadStore (positions (merge_data hist batch now1).2))
        batch now2).2 =
      (positions (merge_data hist batch now1).2).map
        (fun p => if generate_position_hash p ∈ batch.map Prod.fst
          then { p with last_updated := some now2 } else p) ∧
    (positions (merge_data (loadStore (positions (merge_data hist batch now1).2))
        batch now2).2).map (fun p => { p with last_updated := none }) =
      (positions (merge_data hist batch now1).2).map
        (fun p => { p with last_updated := none }) := by
  have hm1nd := merge_data_nodup hist batch now1 hh
  have hm1c := merge_data_hash_consistent hist batch now1 hch hcb
  have hcov := merge_data_batch_covered hist batch now1 hb
  set m1 : Store := (merge_data hist batch now1).2 with hm1def
  rw [loadStore_roundtrip m1 hm1nd hm1c]
  have hrf := foldl_mergeStep_refresh m1 now2 hm1nd batch
    { historical_positions := (m1.length : ℤ),
      positions_preserved := (m1.length : ℤ) } [] hb hcov (by simp)
  rw [refreshTouched_nil] at hrf
  simp only [List.nil_append] at hrf
  have h2 : (merge_data m1 batch now2).2 =
      refreshTouched (batch.map Prod.fst) now2 m1 := by
    rw [merge_data_snd m1 batch now2, hrf.1]
  refine ⟨?_, ?_, ?_⟩
  · rw [merge_data_added m1 batch now2, hrf.2]
  · rw [h2, positions_refreshTouched _ _ _ hm1c]
  · rw [h2, refreshTouched_erase_last_updated]

/-- Witness for C3 (amended) on a concrete empty store and singleton batch. -/
theorem merge_twice_amended_witness :
    (merge_data (loadStore (positions
        (merge_data [] [("a||", ({ title := "a" } : Position))] "t1").2))
        [("a||", ({ title := "a" } : Position))] "t2").1.new_positions_added = 0 ∧
    positions (merge_data (loadStore (positions
        (merge_data [] [("a||", ({ title := "a" } : Position))] "t1").2))
        [("a||", ({ title := "a" } : Position))] "t2").2 =
      (positions (merge_data [] [("a||", ({ title := "a" } : Position))] "t1").2).map
        (fun p => if generate_position_hash p ∈
            ([("a||", ({ title := "a" } : Position))].map Prod.fst)
          then { p with last_updated := some "t2" } else p) ∧
    (positions (merge_data (loadStore (positions
        (merge_data [] [("a||", ({ title := "a" } : Position))] "t1").2))
        [("a||", ({ title := "a" } : Position))] "t2").2).map
        (fun p => { p with last_updated := none }) =
      (positions (merge_data [] [("a||", ({ title := "a" } : Position))] "t1").2).map
        (fun p => { p with last_updated := none }) :=
  merge_twice_amended [] [("a||", { title := "a" })] "t1" "t2"
    (by decide) (by decide) (by decide) (by decide)

/-- Counterexample for C3 as stated: re-merging the same singleton batch
refreshes `last_updated` on the matched record, so the persisted positions
array after the second merge is NOT set-equal to the one after the first. -/
theorem merge_twice_counterexample :
    ¬ (∀ p : Position,
        p ∈ positions (merge_data (loadStore (positions
            (merge_data [] [("a||", ({ title := "a" } : Position))] "t1").2))
          [("a||", ({ title := "a" } : Position))] "t2").2 ↔
        p ∈ positions
          (merge_data [] [("a||", ({ title := "a" } : Position))] "t1").2) := by
  intro h
  have h1 : (merge_data [] [("a||", ({ title := "a" } : Position))] "t1").2 =
      [("a||", { title := "a", first_seen := some "t1" })] := by decide
  have ha := h { title := "a", first_seen := some "t1" }
  rw [h1] at ha
  have hload : loadStore
      (positions [("a||",
        ({ title := "a", first_seen := some "t1" } : Position))]) =
      [("a||", { title := "a", first_seen := some "t1" })] := by decide
  rw [hload] at ha
  have hcov : ∀ kv ∈ [("a||", ({ title := "a" } : Position))],
      ∃ r, plookup kv.1
          [("a||", ({ title := "a", first_seen := some "t1" } : Position))] =
          some r ∧ is_better_data kv.2 r = false := by
    intro kv hkv
    simp only [List.mem_singleton] at hkv
    subst hkv
    refine ⟨{ title := "a", first_seen := some "t1" }, by decide, ?_⟩
    rw [is_better_data_eq]
    decide
  have hrf := foldl_mergeStep_refresh
    [("a||", ({ title := "a", first_seen := some "t1" } : Position))] "t2"
    (by decide) [("a||", ({ title := "a" } : Position))]
    { historical_positions :=
        (([("a||", ({ title := "a", first_seen := some "t1" } : Position))] :
          Store).length : ℤ),
      positions_preserved :=
        (([("a||", ({ title := "a", first_seen := some "t1" } : Position))] :
          Store).length : ℤ) } [] (by decide) hcov (by simp)
  rw [refreshTouched_nil] at hrf
  have h2 : (merge_data
      [("a||", ({ title := "a", first_seen := some "t1" } : Position))]
      [("a||", ({ title := "a" } : Position))] "t2").2 =
      refreshTouched
        ([] ++ ([("a||", ({ title := "a" } : Position))].map Prod.fst)) "t2"
        [("a||", { title := "a", first_seen := some "t1" })] := by
    rw [merge_data_snd, hrf.1]
  rw [h2] at ha
  have h3 : positions (refreshTouched
      ([] ++ ([("a||", ({ title := "a" } : Position))].map Prod.fst)) "t2"
      [("a||", { title := "a", first_seen := some "t1" })]) =
      [{ title := "a", first_seen := some "t1",
         last_updated := some "t2" }] := by decide
  rw [h3] at ha
  exact absurd (ha.mpr (by decide)) (by decide)

/-- A file-system operation performed by the persistence code. -/
inductive FsOp where
  | write (path content : String)
  | rename (src dst : String)
  deriving DecidableEq

/-- The canonical store path written by `_save_merged_data`. -/
def historicalPath : String := "data/historical_positions.json"

/-- `IntelligentDataMerger._save_merged_data` as its sequence of file
operations: `open(historical_file, 'w')` + `json.dump` is a direct write of
the serialized document to the canonical path, followed by the same document
written to a timestamped archive path. No temporary file and no rename. -/
def save_merged_data_ops (storeJson archivePath : String) : List FsOp :=
  [FsOp.write historicalPath storeJson, FsOp.write archivePath storeJson]

/-- The persist step of `update_master_csv` in `new_attempt.py`: write the
combined CSV to the sibling `master_csv + ".tmp"` path, then
`os.replace(tmp_file, master_csv)`. -/
def update_master_csv_ops (csv master : String) : List FsOp :=
  [FsOp.write (master ++ ".tmp") csv, FsOp.rename (master ++ ".tmp") master]

/-- Modelled from the spec: the claim's "written to a sibling temporary path
and only then renamed over the canonical store path" as a trace shape. -/
def isAtomicReplaceTrace (ops : List FsOp) (canonical : String) : Prop :=
  ∃ tmp content, tmp ≠ canonical ∧
    ops = [FsOp.write tmp content, FsOp.rename tmp canonical]

/-- A file system: map from path to content. -/
def FileSys : Type := String → Option String

/-- Effect of one operation on the file system. -/
def runOp (fs : FileSys) : FsOp → FileSys
  | FsOp.write p c => fun q => if q = p then some c else fs q
  | FsOp.rename src dst => fun q =>
      if q = dst then fs src else if q = src then none else fs q

/-- Effect of a trace of operations, in order. -/
def runOps (fs : FileSys) : List FsOp → FileSys
  | [] => fs
  | op :: rest => runOps (runOp fs op) rest

/-- Counterexample for C5: the merge store's persist step is not a
write-to-temp-then-rename — its very trace contains no rename at all, only a
direct write to the canonical path. -/
theorem save_not_atomic_counterexample :
    ¬ isAtomicReplaceTrace (save_merged_data_ops "x" "data/archive/m.json")
      historicalPath := by
  rintro ⟨tmp, content, hne, heq⟩
  simp [save_merged_data_ops] at heq

/-- C5 (amended): the JSON store persist writes the document directly onto
the canonical path (no trace of it is a temp-write-then-rename, and already
after its first operation the canonical path holds the new document), while
the separate master-CSV updater is the one that writes to a sibling `.tmp`
path and renames it over the master path, so that a failure between its
temporary-file write and its rename leaves the master file unchanged. -/
theorem persist_step_amended (storeJson archivePath csv master : String) :
    ¬ isAtomicReplaceTrace (save_merged_data_ops storeJson archivePath)
        historicalPath ∧
    (∀ fs : FileSys,
      runOps fs ((save_merged_data_ops storeJson archivePath).take 1)
        historicalPath = some storeJson) ∧
    isAtomicReplaceTrace (update_master_csv_ops csv master) master ∧
    (∀ fs : FileSys,
      runOps fs ((update_master_csv_ops csv master).take 1) master =
        fs master) := by
  have htmp : master ++ ".tmp" ≠ master := by
    intro h
    have hl := congrArg String.length h
    rw [String.length_append] at hl
    have h4 : (".tmp" : String).length = 4 := by decide
    omega
  refine ⟨?_, ?_, ?_, ?_⟩
  · rintro ⟨tmp, content, hne, heq⟩
    simp [save_merged_data_ops] at heq
  · intro fs
    simp [save_merged_data_ops, runOps, runOp]
  · exact ⟨master ++ ".tmp", csv, htmp, rfl⟩
  · intro fs
    simp [update_master_csv_ops, runOps, runOp]
    intro h
    exact absurd h.symm htmp

/-- A character the numeric-token regex `\d[\d,\.]*` may consume after the
leading digit. -/
def isTokChar (c : Char) : Bool :=
  c.isDigit || c = ',' || c = '.'

/-- Fuel-indexed scanner for `re.findall(r"\d[\d,\.]*", s)`: find the
leftmost digit, take the maximal run of token characters, continue after it.
The fuel is the text length; every step consumes at least one character. -/
def numTokensFuel : Nat → List Char → List String
  | 0, _ => []
  | _ + 1, [] => []
  | fuel + 1, c :: rest =>
    if c.isDigit then
      String.mk (c :: rest.takeWhile isTokChar) ::
        numTokensFuel fuel (rest.dropWhile isTokChar)
    else numTokensFuel fuel rest

/-- The numeric tokens of a text, as found by the parser's regex. -/
def numTokens (s : List Char) : List String :=
  numTokensFuel s.length s

/-- Split a character list at every `'.'`. -/
def splitDots : List Char → List (List Char)
  | [] => [[]]
  | c :: rest =>
    if c = '.' then [] :: splitDots rest
    else
      match splitDots rest with
      | [] => [[c]]
      | h :: t => (c :: h) :: t

/-- Value of a digit string. -/
def digitsToNat (l : List Char) : ℕ :=
  l.foldl (fun n c => n * 10 + (c.toNat - 48)) 0

/-- Python `float(num.replace(",", ""))` on a regex token: commas are
dropped; the result parses when at most one decimal point remains (otherwise
`ValueError`, and the token is skipped). -/
def parseNum (t : String) : Option ℚ :=
  let cleaned := t.data.filter (fun c => c ≠ ',')
  match splitDots cleaned with
  | [a] =>
    if a.all Char.isDigit && !a.isEmpty then some ((digitsToNat a : ℚ))
    else none
  | [a, b] =>
    if (a.all Char.isDigit && b.all Char.isDigit) && !a.isEmpty then
      some ((digitsToNat a : ℚ) + (digitsToNat b : ℚ) / ((10 : ℚ) ^ b.length))
    else none
  | _ => none

/-- The defeat phrases of `parse_salary`, tested as substrings of the
lowercased, stripped text. -/
def salaryDefeat (s : String) : Bool :=
  containsSub s "none" || containsSub s "commensurate" ||
    containsSub s "negotiable"

/-- `s = salary_str.lower().strip()` in `parse_salary`. -/
def salaryText (salary_str : String) : String :=
  pyStrip (pyLower salary_str)

/-- `s = s.replace("starting at", "").strip()` in `parse_salary`. -/
def salaryTextClean (salary_str : String) : String :=
  pyStrip (pyReplace (salaryText salary_str) "starting at" "")

/-- The frequency multiplier of `parse_salary`, by detected unit phrase. -/
def salaryMultiplier (s : String) : ℚ :=
  if containsSub s "per year" then 1
  else if containsSub s "per month" then 12
  else if containsSub s "per week" then 52
  else if containsSub s "per hour" then 2080
  else 1

/-- `parse_salary` from `new_attempt.py`: defeat phrases and token-free text
give no value; parsed values are the numeric tokens that survive `float`;
the base is the mean of the first two values when the text contains "to" and
two values exist, else the first value; the result is base × multiplier. -/
def parse_salary (salary_str : String) : Option ℚ :=
  if salaryDefeat (salaryText salary_str) then none
  else
    let s := salaryTextClean salary_str
    let toks := numTokens s.data
    if toks.isEmpty then none
    else
      match toks.filterMap parseNum with
      | [] => none
      | v0 :: rest =>
        some ((match rest with
          | [] => v0
          | v1 :: _ => if containsSub s "to" then (v0 + v1) / 2 else v0) *
          salaryMultiplier s)

/-- Counterexample for C6: "1.2.3" contains a numeric token and no defeat
phrase, yet the parser returns no value — the token fails `float` (two
decimal points) and is skipped, leaving no parsed value. -/
theorem parse_salary_counterexample :
    salaryDefeat (salaryText "1.2.3") = false ∧
    numTokens (salaryTextClean "1.2.3").data ≠ [] ∧
    parse_salary "1.2.3" = none := by
  refine ⟨by decide, by decide, by decide⟩

/-- C6 (amended): the parser returns no value on a defeat phrase
("commensurate"/"negotiable"/"none" as substrings of the lowercased text),
on token-free text, and also whenever every numeric token fails to parse as
a number (the forced amendment: unparsable tokens such as "1.2.3" are
skipped); otherwise the base value is the mean of the first two parsed
values when the processed text contains "to" and two values exist, else the
first parsed value, scaled by the unit-phrase multiplier; in particular the
three quoted examples hold. -/
theorem parse_salary_amended (s : String) :
    (salaryDefeat (salaryText s) = true → parse_salary s = none) ∧
    (numTokens (salaryTextClean s).data = [] → parse_salary s = none) ∧
    ((numTokens (salaryTextClean s).data).filterMap parseNum = [] →
      parse_salary s = none) ∧
    (∀ v0 : ℚ, salaryDefeat (salaryText s) = false →
      (numTokens (salaryTextClean s).data).filterMap parseNum = [v0] →
      parse_salary s = some (v0 * salaryMultiplier (salaryTextClean s))) ∧
    (∀ v0 v1 : ℚ, ∀ vrest : List ℚ, salaryDefeat (salaryText s) = false →
      (numTokens (salaryTextClean s).data).filterMap parseNum =
        v0 :: v1 :: vrest →
      containsSub (salaryTextClean s) "to" = true →
      parse_salary s =
        some ((v0 + v1) / 2 * salaryMultiplier (salaryTextClean s))) ∧
    (∀ v0 v1 : ℚ, ∀ vrest : List ℚ, salaryDefeat (salaryText s) = false →
      (numTokens (salaryTextClean s).data).filterMap parseNum =
        v0 :: v1 :: vrest →
      containsSub (salaryTextClean s) "to" = false →
      parse_salary s = some (v0 * salaryMultiplier (salaryTextClean s))) ∧
    parse_salary "$25,000 to $30,000 per year" = some 27500 ∧
    parse_salary "$2,500 per month" = some 30000 ∧
    parse_salary "Commensurate" = none := by
  refine ⟨?_, ?_, ?_, ?_, ?_, ?_, ?_, ?_, by decide⟩
  · intro h
    unfold parse_salary
    rw [if_pos h]
  · intro h
    unfold parse_salary
    by_cases hd : salaryDefeat (salaryText s)
    · rw [if_pos hd]
    · rw [if_neg hd]
      simp [h]
  · intro h
    unfold parse_salary
    by_cases hd : salaryDefeat (salaryText s)
    · rw [if_pos hd]
    · rw [if_neg hd]
      by_cases ht : (numTokens (salaryTextClean s).data).isEmpty
      · simp [ht]
      · simp [ht, h]
  · intro v0 hd h
    unfold parse_salary
    rw [if_neg (by simp [hd])]
    have ht : (numTokens (salaryTextClean s).data).isEmpty = false := by
      cases htk : numTokens (salaryTextClean s).data with
      | nil => rw [htk] at h; simp at h
      | cons a l => simp
    simp only [ht, Bool.false_eq_true, if_false, h]
  · intro v0 v1 vrest hd h hto
    unfold parse_salary
    rw [if_neg (by simp [hd])]
    have ht : (numTokens (salaryTextClean s).data).isEmpty = false := by
      cases htk : numTokens (salaryTextClean s).data with
      | nil => rw [htk] at h; simp at h
      | cons a l => simp
    simp only [ht, Bool.false_eq_true, if_false, h, hto, if_true]
  · intro v0 v1 vrest hd h hto
    unfold parse_salary
    rw [if_neg (by simp [hd])]
    have ht : (numTokens (salaryTextClean s).data).isEmpty = false := by
      cases htk : numTokens (salaryTextClean s).data with
      | nil => rw [htk] at h; simp at h
      | cons a l => simp
    simp only [ht, Bool.false_eq_true, if_false, h, hto]
  · have h1 : parse_salary "$25,000 to $30,000 per year" =
        some ((((25000 : ℕ) : ℚ) + ((30000 : ℕ) : ℚ)) / 2 * 1) := by rfl
    rw [h1]
    norm_num
  · have h1 : parse_salary "$2,500 per month" =
        some (((2500 : ℕ) : ℚ) * 12) := by rfl
    rw [h1]
    norm_num

/-- Witness for C6 (amended): a defeat phrase yields no value. -/
theorem parse_salary_amended_witness : parse_salary "Salary negotiable" = none :=
  (parse_salary_amended "Salary negotiable").1 (by decide)

/-- `convert_monthly_to_annual` from `enhanced_dashboard_data.py`. -/
def convert_monthly_to_annual (salary_value : ℚ) (salary_original : String) : ℚ :=
  if salary_value = 0 then salary_value
  else
    if containsSub (pyLower salary_original) "month" ∧ 0 < salary_value then
      if salary_value < 5000 then salary_value * 12
      else if salary_value < 8000 then salary_value * 12
      else salary_value
    else if 1000 ≤ salary_value ∧ salary_value ≤ 4000 then salary_value * 12
    else if salary_value < 8000 ∧ 800 ≤ salary_value then salary_value * 12
    else salary_value

/-- C7: with no explicit monthly marker in the original text, a value inside
the 800–8000 monthly-stipend band is re-multiplied by 12, and a value above
the band is returned unchanged. -/
theorem monthly_band_reclassification (v : ℚ) (orig : String)
    (hm : containsSub (pyLower orig) "month" = false) :
    (800 ≤ v → v < 8000 → convert_monthly_to_annual v orig = v * 12) ∧
    (8000 ≤ v → convert_monthly_to_annual v orig = v) := by
  constructor
  · intro h1 h2
    unfold convert_monthly_to_annual
    rw [if_neg (by intro h; rw [h] at h1; norm_num at h1)]
    rw [if_neg (by simp [hm])]
    by_cases hb : 1000 ≤ v ∧ v ≤ 4000
    · rw [if_pos hb]
    · rw [if_neg hb, if_pos ⟨h2, h1⟩]
  · intro h1
    unfold convert_monthly_to_annual
    rw [if_neg (by intro h; rw [h] at h1; norm_num at h1)]
    rw [if_neg (by simp [hm])]
    rw [if_neg (by intro h; linarith [h.2])]
    rw [if_neg (by intro h; linarith [h.1])]

/-- Witness for C7: 2000 (inside the band) is annualized; 50000 (above it)
is untouched. -/
theorem monthly_band_reclassification_witness :
    convert_monthly_to_annual 2000 "stipend" = 2000 * 12 ∧
    convert_monthly_to_annual 50000 "stipend" = 50000 :=
  ⟨(monthly_band_reclassification 2000 "stipend" (by decide)).1
      (by norm_num) (by norm_num),
   (monthly_band_reclassification 50000 "stipend" (by decide)).2 (by norm_num)⟩

theorem countP_congr_mem (l : List String) (p1 p2 : String → Bool)
    (h : ∀ a ∈ l, p1 a = p2 a) : l.countP p1 = l.countP p2 := by
  induction l with
  | nil => rfl
  | cons a t ih =>
    rw [List.countP_cons, List.countP_cons, h a (List.mem_cons_self a t),
      ih (fun b hb => h b (List.mem_cons_of_mem a hb))]

theorem countP_isFilled_update (p : PosDict) (f : String) (v : Value)
    (hempty : isFilled (p f) = false) (hfill : isFilled v = true) :
    ∀ l : List String, l.Nodup → f ∈ l →
      l.countP (fun g => isFilled (Function.update p f v g)) =
        l.countP (fun g => isFilled (p g)) + 1 := by
  intro l
  induction l with
  | nil => intro _ h; simp at h
  | cons a t ih =>
    intro hnd hf
    simp only [List.nodup_cons] at hnd
    rw [List.countP_cons, List.countP_cons]
    by_cases haf : a = f
    · subst haf
      have htcount : t.countP (fun g => isFilled (Function.update p a v g)) =
          t.countP (fun g => isFilled (p g)) := by
        apply countP_congr_mem
        intro b hb
        have hba : b ≠ a := by
          intro h
          exact hnd.1 (h ▸ hb)
        simp only [Function.update_noteq hba]
      rw [htcount, Function.update_same, hfill, hempty]
      simp
    · have hne : a ≠ f := haf
      rw [Function.update_noteq hne]
      have hft : f ∈ t := by
        rcases List.mem_cons.mp hf with h | h
        · exact absurd h.symm haf
        · exact h
      rw [ih hnd.2 hft]
      ring

/-- C8: the completeness score is the populated-designated-field count over
13, lies in [0, 1], and filling any previously-empty designated field raises
it by exactly 1/13. -/
theorem completeness_monotonic (p : PosDict) (f : String) (v : Value)
    (hf : f ∈ fields_to_check) (hempty : isFilled (p f) = false)
    (hfill : isFilled v = true) :
    calculate_data_completeness p = (filledCount p : ℚ) / 13 ∧
    0 ≤ calculate_data_completeness p ∧
    calculate_data_completeness p ≤ 1 ∧
    calculate_data_completeness (Function.update p f v) =
      calculate_data_completeness p + 1 / 13 := by
  have hlen : (fields_to_check.length : ℚ) = 13 := by norm_num [fields_to_check]
  have hcount := countP_isFilled_update p f v hempty hfill fields_to_check
    (by decide) hf
  refine ⟨?_, ?_, ?_, ?_⟩
  · unfold calculate_data_completeness
    rw [hlen]
  · unfold calculate_data_completeness
    positivity
  · unfold calculate_data_completeness
    rw [hlen]
    rw [div_le_one (by norm_num)]
    have hle : filledCount p ≤ fields_to_check.length :=
      List.countP_le_length _
    have h13 : fields_to_check.length = 13 := by decide
    exact_mod_cast h13 ▸ hle
  · unfold calculate_data_completeness filledCount
    rw [hlen, hcount]
    push_cast
    ring

/-- Witness for C8: filling the empty description field of a one-field
record raises the score by exactly 1/13. -/
theorem completeness_monotonic_witness :
    calculate_data_completeness
        (Function.update
          (fun g => if g = "title" then Value.vstr "x" else Value.vstr "")
          "description" (Value.vstr "y")) =
      calculate_data_completeness
        (fun g => if g = "title" then Value.vstr "x" else Value.vstr "") +
        1 / 13 :=
  (completeness_monotonic
    (fun g => if g = "title" then Value.vstr "x" else Value.vstr "")
    "description" (Value.vstr "y") (by decide) (by decide) (by decide)).2.2.2

/-- `ImprovedGraduateDetector.rule_based_classification`'s additive score.
The strong-indicator regex match counts (`strong_grad_score`,
`strong_non_grad_score` in `extract_features`) enter as the inputs `g` and
`n`; the title keyword features and the salary-band features are computed
from the title and the Lincoln-adjusted salary exactly as in
`extract_features`. -/
def rule_score (title description : String) (salary : ℚ) (g n : ℕ) : ℚ :=
  let t := pyLower title
  let d := pyLower description
  let s0 : ℚ := 1 / 2
  let s1 := if 0 < g then s0 + 3 / 10 * g else s0
  let s2 := if 0 < n then s1 - 4 / 10 * n else s1
  let s3 := if containsSub t "assistantship" then s2 + 2 / 10 else s2
  let s4 := if containsSub t "graduate" then s3 + 15 / 100 else s3
  let s5 := if (containsSub t "master" || containsSub t "ms" ||
      containsSub t "m.s") ||
      (containsSub t "phd" || containsSub t "ph.d" || containsSub t "doctoral")
    then s4 + 1 / 10 else s4
  let s6 := if 60000 < salary then s5 - 3 / 10
    else if 0 < salary ∧ salary < 8000 then s5 - 1 / 10
    else if 0 < salary ∧ 8000 ≤ salary ∧ salary ≤ 60000 then s5 + 1 / 10
    else s5
  if d.length < 50 then s6 - 1 / 10 else s6

/-- `rule_based_classification`'s final pair:
`is_graduate = score > 0.6`, `confidence = min(max(score, 0.0), 1.0)`. -/
def rule_based_classification (title description : String) (salary : ℚ)
    (g n : ℕ) : Bool × ℚ :=
  let score := rule_score title description salary g n
  (decide (score > 3 / 5), min (max score 0) 1)

/-- The review-priority banding in `classify_position`. -/
def review_priority (confidence : ℚ) : String :=
  if confidence < 2 / 5 ∨ confidence > 9 / 10 then "low"
  else if 2 / 5 ≤ confidence ∧ confidence ≤ 3 / 5 then "high"
  else "medium"

/-- `ImprovedGraduateDetector.classify_position`, reduced to the fields the
claim is about: (is_graduate, confidence, priority). -/
def classify_position (title description : String) (salary : ℚ)
    (g n : ℕ) : Bool × ℚ × String :=
  let r := rule_based_classification title description salary g n
  (r.1, r.2, review_priority r.2)

/-- C9: the classifier returns `is_graduate = (score > 0.6)`, clamps the
score into [0, 1] as the confidence, and bands the review priority: "high"
exactly on [0.4, 0.6], "low" exactly below 0.4 or above 0.9, "medium"
exactly otherwise. -/
theorem classifier_banding (title description : String) (salary : ℚ)
    (g n : ℕ) :
    (classify_position title description salary g n).1 =
      decide (rule_score title description salary g n > 3 / 5) ∧
    (classify_position title description salary g n).2.1 =
      min (max (rule_score title description salary g n) 0) 1 ∧
    ((classify_position title description salary g n).2.2 = "high" ↔
      (2 / 5 ≤ (classify_position title description salary g n).2.1 ∧
        (classify_position title description salary g n).2.1 ≤ 3 / 5)) ∧
    ((classify_position title description salary g n).2.2 = "low" ↔
      ((classify_position title description salary g n).2.1 < 2 / 5 ∨
        (classify_position title description salary g n).2.1 > 9 / 10)) ∧
    ((classify_position title description salary g n).2.2 = "medium" ↔
      ¬((2 / 5 ≤ (classify_position title description salary g n).2.1 ∧
          (classify_position title description salary g n).2.1 ≤ 3 / 5) ∨
        (classify_position title description salary g n).2.1 < 2 / 5 ∨
        (classify_position title description salary g n).2.1 > 9 / 10)) := by
  have hconf : (classify_position title description salary g n).2.1 =
      min (max (rule_score title description salary g n) 0) 1 := rfl
  have hprio : (classify_position title description salary g n).2.2 =
      review_priority
        (min (max (rule_score title description salary g n) 0) 1) := rfl
  set c : ℚ := min (max (rule_score title description salary g n) 0) 1
    with hc
  refine ⟨rfl, rfl, ?_, ?_, ?_⟩
  · rw [hprio, hconf]
    unfold review_priority
    by_cases hlow : c < 2 / 5 ∨ c > 9 / 10
    · rw [if_pos hlow]
      constructor
      · intro h
        exact absurd h (by decide)
      · intro hhigh
        rcases hlow with h | h
        · linarith [hhigh.1]
        · linarith [hhigh.2]
    · rw [if_neg hlow]
      by_cases hhigh : 2 / 5 ≤ c ∧ c ≤ 3 / 5
      · rw [if_pos hhigh]
        simp [hhigh]
      · rw [if_neg hhigh]
        constructor
        · intro h
          exact absurd h (by decide)
        · intro h
          exact absurd h hhigh
  · rw [hprio, hconf]
    unfold review_priority
    by_cases hlow : c < 2 / 5 ∨ c > 9 / 10
    · rw [if_pos hlow]
      simp [hlow]
    · rw [if_neg hlow]
      by_cases hhigh : 2 / 5 ≤ c ∧ c ≤ 3 / 5
      · rw [if_pos hhigh]
        constructor
        · intro h
          exact absurd h (by decide)
        · intro h
          exact absurd h hlow
      · rw [if_neg hhigh]
        constructor
        · intro h
          exact absurd h (by decide)
        · intro h
          exact absurd h hlow
  · rw [hprio, hconf]
    unfold review_priority
    by_cases hlow : c < 2 / 5 ∨ c > 9 / 10
    · rw [if_pos hlow]
      constructor
      · intro h
        exact absurd h (by decide)
      · intro h
        exact absurd (Or.inr hlow) h
    · rw [if_neg hlow]
      by_cases hhigh : 2 / 5 ≤ c ∧ c ≤ 3 / 5
      · rw [if_pos hhigh]
        constructor
        · intro h
          exact absurd h (by decide)
        · intro h
          exact absurd (Or.inl hhigh) h
      · rw [if_neg hhigh]
        constructor
        · intro _
          intro h
          rcases h with h | h
          · exact hhigh h
          · exact hlow h
        · intro _
          rfl
